import Mathlib

/-!
# Verification of the portfolio-value derivation (`src/Chart.tsx`)

This file is a shallow embedding of the `Chart.tsx` component of the
repository: the pure derivation routine `calculatePortfolioValue`, its
helper `formatDate`, and the fetch/derive effect structure of the
`PortfolioValueChart` component, together with theorems settling the
specification's claims about them.

Modelling conventions:
* JavaScript numbers holding share quantities are modelled as `Int`
  (the running `currentShares` can go negative), prices as `Rat`.
* JavaScript `Date` is modelled by the ECMAScript abstract date
  operations over `Int` day numbers (sections below): `toISOString`'s
  date part is `formatDate`/`stringOfDay`, and `new Date(s).getTime()`
  on the ISO date / UTC date-time strings the component deals in is
  `parseDateMs` (`none` models `NaN`, i.e. an unparseable string).
* JavaScript objects used as string-keyed maps are association lists in
  insertion order (JS string keys preserve first-insertion order, and
  the keys used here — ISO date strings — are not array indices);
  `Object.entries`/iteration order of the fetched price table is the
  list order of the embedded price list (its keys are unused by the code).
* `Array.prototype.sort` with the component's comparator is a stable
  sort; `sortBy` below is a stable insertion sort, and a comparator
  call returning `NaN` (some date failed to parse) is modelled — as in
  the engines — as "no exchange", i.e. the comparison is treated as a tie.
-/

/-! ## Civil (proleptic Gregorian, UTC) calendar

Models the ECMAScript date abstract operations (DayFromYear,
YearFromTime, InLeapYear, MonthFromTime, DateFromTime, MakeDay).  All
divisors are positive, so `/` and `%` on `Int` coincide with
ECMAScript's `floor` division and `modulo`. -/

/-- ECMA-262 DayFromYear: day number (days since 1970-01-01) of Jan 1 of year `y`. -/
def dayFromYear (y : Int) : Int :=
  365 * (y - 1970) + (y - 1969) / 4 - (y - 1901) / 100 + (y - 1601) / 400

/-- ECMA-262 InLeapYear: is DaysInYear `y` = 366. -/
def inLeapYear (y : Int) : Bool :=
  (y % 4 = 0 ∧ y % 100 ≠ 0) ∨ y % 400 = 0

/-- Day offset, within a 400-year era starting at a year divisible by 400,
    of the start of era-year `yoe` (sensible for `0 ≤ yoe ≤ 400`). -/
def yearStartInEra (yoe : Nat) : Nat :=
  365 * yoe + (yoe + 3) / 4 - (yoe + 99) / 100 + (yoe + 399) / 400

/-- Largest `yoe ≤ k` with `yearStartInEra yoe ≤ doe` (ECMA-262
    YearFromTime is the analogous largest-year-below search). -/
def yearInEraSearch (doe : Nat) : Nat → Nat
  | 0 => 0
  | k + 1 => if yearStartInEra (k + 1) ≤ doe then k + 1 else yearInEraSearch doe k

/-- First day-of-year of month `m` (1-12), `lp` = 1 in leap years
    (the month offsets of ECMA-262 MonthFromTime / MakeDay). -/
def monthStart (m : Nat) (lp : Nat) : Nat :=
  match m with
  | 1 => 0      | 2 => 31      | 3 => 59 + lp | 4 => 90 + lp
  | 5 => 120 + lp | 6 => 151 + lp | 7 => 181 + lp | 8 => 212 + lp
  | 9 => 243 + lp | 10 => 273 + lp | 11 => 304 + lp | _ => 334 + lp

/-- Month lengths; `lp` = 1 in leap years. -/
def monthLen (m : Nat) (lp : Nat) : Nat :=
  match m with
  | 1 => 31 | 2 => 28 + lp | 3 => 31 | 4 => 30
  | 5 => 31 | 6 => 30 | 7 => 31 | 8 => 31
  | 9 => 30 | 10 => 31 | 11 => 30 | _ => 31

/-- Month (1-12) and day-of-month from a day-of-year (ECMA-262
    MonthFromTime / DateFromTime), `lp` = 1 in leap years. -/
def monthDayFromDayInYear (diy : Nat) (lp : Nat) : Nat × Nat :=
  if diy < 31 then (1, diy + 1)
  else if diy < 59 + lp then (2, diy - 31 + 1)
  else if diy < 90 + lp then (3, diy - (59 + lp) + 1)
  else if diy < 120 + lp then (4, diy - (90 + lp) + 1)
  else if diy < 151 + lp then (5, diy - (120 + lp) + 1)
  else if diy < 181 + lp then (6, diy - (151 + lp) + 1)
  else if diy < 212 + lp then (7, diy - (181 + lp) + 1)
  else if diy < 243 + lp then (8, diy - (212 + lp) + 1)
  else if diy < 273 + lp then (9, diy - (243 + lp) + 1)
  else if diy < 304 + lp then (10, diy - (273 + lp) + 1)
  else if diy < 334 + lp then (11, diy - (304 + lp) + 1)
  else (12, diy - (334 + lp) + 1)

/-- The year holding day `doe` of the era starting at year `400 * era`. -/
def yearOfEra (era : Int) (doe : Nat) : Int :=
  400 * era + yearInEraSearch doe 399

/-- The day-of-year of day `doe` of an era. -/
def dayInYearOfEra (doe : Nat) : Nat :=
  doe - yearStartInEra (yearInEraSearch doe 399)

/-- Year, month (1-12) and day (1-31) of a day number (days since
    1970-01-01, UTC), via a 400-year era decomposition. -/
def civilFromDays (z : Int) : Int × Nat × Nat :=
  let era : Int := (z + 719528) / 146097
  let doe : Nat := ((z + 719528) % 146097).toNat
  let y : Int := yearOfEra era doe
  let md := monthDayFromDayInYear (dayInYearOfEra doe) (if inLeapYear y then 1 else 0)
  (y, md.1, md.2)

/-- ECMA-262 MakeDay: day number of a year/month/day. -/
def daysFromCivil (y : Int) (m d : Nat) : Int :=
  dayFromYear y + monthStart m (if inLeapYear y then 1 else 0) + d - 1

/-- Days in month `m` of year `y` (for ISO date-string validation). -/
def daysInMonth (y : Int) (m : Nat) : Nat :=
  if m = 2 then (if inLeapYear y then 29 else 28)
  else if m = 4 ∨ m = 6 ∨ m = 9 ∨ m = 11 then 30
  else 31

theorem ceil4 (k : Nat) : (k + 4) / 4 = (k + 3) / 4 + (if k % 4 = 0 then 1 else 0) := by
  by_cases h : k % 4 = 0
  · rw [if_pos h]; omega
  · rw [if_neg h]; omega

theorem ceil100 (k : Nat) :
    (k + 100) / 100 = (k + 99) / 100 + (if k % 100 = 0 then 1 else 0) := by
  by_cases h : k % 100 = 0
  · rw [if_pos h]; omega
  · rw [if_neg h]; omega

theorem ceil400 (k : Nat) :
    (k + 400) / 400 = (k + 399) / 400 + (if k % 400 = 0 then 1 else 0) := by
  by_cases h : k % 400 = 0
  · rw [if_pos h]; omega
  · rw [if_neg h]; omega

theorem yearStartInEra_zero : yearStartInEra 0 = 0 := by decide

theorem yearStartInEra_succ (k : Nat) :
    yearStartInEra (k + 1) =
      yearStartInEra k + 365 +
        (if (k % 4 = 0 ∧ k % 100 ≠ 0) ∨ k % 400 = 0 then 1 else 0) := by
  have h4 := ceil4 k
  have h100 := ceil100 k
  have h400 := ceil400 k
  have e4 : k + 1 + 3 = k + 4 := by omega
  have e100 : k + 1 + 99 = k + 100 := by omega
  have e400 : k + 1 + 399 = k + 400 := by omega
  unfold yearStartInEra
  rw [e4, e100, e400, h4, h100, h400]
  obtain ⟨a, ha, ha1, ha2⟩ : ∃ a, (k + 3) / 4 = a ∧ 4 * a ≤ k + 3 ∧ k ≤ 4 * a :=
    ⟨(k + 3) / 4, rfl, by omega, by omega⟩
  obtain ⟨b, hb, hb1, hb2⟩ : ∃ b, (k + 99) / 100 = b ∧ 100 * b ≤ k + 99 ∧ k ≤ 100 * b :=
    ⟨(k + 99) / 100, rfl, by omega, by omega⟩
  obtain ⟨c, hc2, hc3, hc4⟩ : ∃ c, (k + 399) / 400 = c ∧ 400 * c ≤ k + 399 ∧ k ≤ 400 * c :=
    ⟨(k + 399) / 400, rfl, by omega, by omega⟩
  rw [ha, hb, hc2]
  clear ha hb hc2 h4 h100 h400
  by_cases k4 : k % 4 = 0 <;> by_cases k100 : k % 100 = 0 <;> by_cases k400 : k % 400 = 0 <;>
    simp [k4, k100, k400] <;> omega

theorem yearStartInEra_400 : yearStartInEra 400 = 146097 := by decide

theorem yearInEraSearch_le (doe k : Nat) : yearInEraSearch doe k ≤ k := by
  induction k with
  | zero => simp [yearInEraSearch]
  | succ k ih => unfold yearInEraSearch; split <;> omega

theorem yearInEraSearch_start_le (doe k : Nat) :
    yearStartInEra (yearInEraSearch doe k) ≤ doe := by
  induction k with
  | zero =>
    show yearStartInEra 0 ≤ doe
    simp [yearStartInEra_zero]
  | succ k ih => unfold yearInEraSearch; split <;> simp_all

theorem yearInEraSearch_upper (doe k : Nat) :
    doe < yearStartInEra (yearInEraSearch doe k + 1) ∨ yearInEraSearch doe k = k := by
  induction k with
  | zero => right; rfl
  | succ k ih =>
    unfold yearInEraSearch
    split
    · right; rfl
    · rcases ih with h | h
      · left; exact h
      · left; rw [h]; omega

theorem inLeapYear_iff (y : Int) :
    inLeapYear y = true ↔ ((y % 4 = 0 ∧ y % 100 ≠ 0) ∨ y % 400 = 0) := by
  simp [inLeapYear]

/-- The in-era leap criterion agrees with `inLeapYear` of the assembled year. -/
theorem inLeapYear_era (era : Int) (yoe : Nat) :
    (inLeapYear (400 * era + yoe) = true) ↔
      ((yoe % 4 = 0 ∧ yoe % 100 ≠ 0) ∨ yoe % 400 = 0) := by
  rw [inLeapYear_iff]
  constructor <;> intro h' <;> omega

theorem divShift4 (era : Int) (yoe : Nat) :
    (400 * era + (yoe : Int) - 1969) / 4 = 100 * era - 493 + ((yoe : Int) + 3) / 4 := by
  omega

theorem divShift100 (era : Int) (yoe : Nat) :
    (400 * era + (yoe : Int) - 1901) / 100 = 4 * era - 20 + ((yoe : Int) + 99) / 100 := by
  omega

theorem divShift400 (era : Int) (yoe : Nat) :
    (400 * era + (yoe : Int) - 1601) / 400 = era - 5 + ((yoe : Int) + 399) / 400 := by
  omega

/-- `dayFromYear` through the era decomposition. -/
theorem dayFromYear_era (era : Int) (yoe : Nat) (h : yoe ≤ 399) :
    dayFromYear (400 * era + yoe) = -719528 + 146097 * era + yearStartInEra yoe := by
  unfold dayFromYear yearStartInEra
  rw [divShift4, divShift100, divShift400]
  omega

/-- Everything the month/day split guarantees, by finite check. -/
theorem monthDayFromDayInYear_spec :
    ∀ lp : Nat, lp < 2 → ∀ diy : Nat, diy < 365 + lp →
      1 ≤ (monthDayFromDayInYear diy lp).1 ∧ (monthDayFromDayInYear diy lp).1 ≤ 12 ∧
        1 ≤ (monthDayFromDayInYear diy lp).2 ∧
        (monthDayFromDayInYear diy lp).2 ≤ monthLen (monthDayFromDayInYear diy lp).1 lp ∧
        monthStart (monthDayFromDayInYear diy lp).1 lp + ((monthDayFromDayInYear diy lp).2 - 1)
          = diy := by
  set_option maxRecDepth 4000 in decide

theorem daysInMonth_monthLen (y : Int) (m : Nat) (h1 : 1 ≤ m) (h2 : m ≤ 12) :
    daysInMonth y m = monthLen m (if inLeapYear y then 1 else 0) := by
  interval_cases m <;> cases hL : inLeapYear y <;> simp [daysInMonth, monthLen, hL]

/-- Bundle of facts about the in-era year decomposition. -/
theorem eraDecomp_facts (doe : Nat) (hdoe : doe < 146097) :
    yearInEraSearch doe 399 ≤ 399 ∧
      yearStartInEra (yearInEraSearch doe 399) ≤ doe ∧
      doe < yearStartInEra (yearInEraSearch doe 399 + 1) := by
  refine ⟨yearInEraSearch_le doe 399, yearInEraSearch_start_le doe 399, ?_⟩
  rcases yearInEraSearch_upper doe 399 with h | h
  · exact h
  · rw [h, yearStartInEra_400]; exact hdoe

/-- `lp` in terms of the era-year, plus the day-in-year bound. -/
theorem dayInYearOfEra_lt (era : Int) (doe : Nat) (hdoe : doe < 146097) :
    dayInYearOfEra doe < 365 + (if inLeapYear (yearOfEra era doe) then 1 else 0) := by
  obtain ⟨hyle, hstart, hupper⟩ := eraDecomp_facts doe hdoe
  have hsucc := yearStartInEra_succ (yearInEraSearch doe 399)
  have hdiy : dayInYearOfEra doe = doe - yearStartInEra (yearInEraSearch doe 399) := rfl
  rw [show yearOfEra era doe = 400 * era + (yearInEraSearch doe 399 : Int) from rfl]
  by_cases hc : (yearInEraSearch doe 399 % 4 = 0 ∧ yearInEraSearch doe 399 % 100 ≠ 0) ∨
      yearInEraSearch doe 399 % 400 = 0
  · rw [if_pos ((inLeapYear_era era (yearInEraSearch doe 399)).mpr hc)]
    rw [if_pos hc] at hsucc
    omega
  · rw [if_neg (fun hcon => hc ((inLeapYear_era era (yearInEraSearch doe 399)).mp hcon))]
    rw [if_neg hc] at hsucc
    omega

/-- The in-era part of the roundtrip. -/
theorem daysFromCivil_ofEra (era : Int) (doe : Nat) (hdoe : doe < 146097) :
    daysFromCivil (yearOfEra era doe)
        (monthDayFromDayInYear (dayInYearOfEra doe)
          (if inLeapYear (yearOfEra era doe) then 1 else 0)).1
        (monthDayFromDayInYear (dayInYearOfEra doe)
          (if inLeapYear (yearOfEra era doe) then 1 else 0)).2
      = -719528 + 146097 * era + doe := by
  obtain ⟨hyle, hstart, hupper⟩ := eraDecomp_facts doe hdoe
  have hlp1 : (if inLeapYear (yearOfEra era doe) then 1 else 0) < 2 := by split <;> omega
  have hmd := monthDayFromDayInYear_spec _ hlp1 _ (dayInYearOfEra_lt era doe hdoe)
  obtain ⟨h1, h2, h3, h4, h5⟩ := hmd
  have hdf : dayFromYear (yearOfEra era doe) =
      -719528 + 146097 * era + yearStartInEra (yearInEraSearch doe 399) := by
    rw [show yearOfEra era doe = 400 * era + (yearInEraSearch doe 399 : Int) from rfl]
    exact dayFromYear_era era _ hyle
  unfold daysFromCivil
  rw [hdf]
  have hdiy : dayInYearOfEra doe = doe - yearStartInEra (yearInEraSearch doe 399) := rfl
  omega

/-- Main roundtrip: `daysFromCivil` inverts `civilFromDays`. -/
theorem daysFromCivil_civilFromDays (z : Int) :
    daysFromCivil (civilFromDays z).1 (civilFromDays z).2.1 (civilFromDays z).2.2 = z := by
  show daysFromCivil (yearOfEra ((z + 719528) / 146097) (((z + 719528) % 146097).toNat))
      (monthDayFromDayInYear (dayInYearOfEra (((z + 719528) % 146097).toNat)) _).1
      (monthDayFromDayInYear (dayInYearOfEra (((z + 719528) % 146097).toNat)) _).2 = z
  rw [daysFromCivil_ofEra _ _ (by omega)]
  omega

/-- The components `civilFromDays` produces always form a valid calendar date. -/
theorem civilFromDays_valid (z : Int) :
    1 ≤ (civilFromDays z).2.1 ∧ (civilFromDays z).2.1 ≤ 12 ∧
      1 ≤ (civilFromDays z).2.2 ∧
      (civilFromDays z).2.2 ≤ daysInMonth (civilFromDays z).1 (civilFromDays z).2.1 := by
  set era : Int := (z + 719528) / 146097 with hera
  set doe : Nat := ((z + 719528) % 146097).toNat with hdoe
  have ey : (civilFromDays z).1 = yearOfEra era doe := rfl
  have em : (civilFromDays z).2.1 =
      (monthDayFromDayInYear (dayInYearOfEra doe)
        (if inLeapYear (yearOfEra era doe) then 1 else 0)).1 := rfl
  have ed : (civilFromDays z).2.2 =
      (monthDayFromDayInYear (dayInYearOfEra doe)
        (if inLeapYear (yearOfEra era doe) then 1 else 0)).2 := rfl
  rw [ey, em, ed]
  have hdoeU : doe < 146097 := by omega
  have hlp1 : (if inLeapYear (yearOfEra era doe) then 1 else 0) < 2 := by split <;> omega
  have hmd := monthDayFromDayInYear_spec _ hlp1 _ (dayInYearOfEra_lt era doe hdoeU)
  obtain ⟨h1, h2, h3, h4, h5⟩ := hmd
  refine ⟨h1, h2, h3, ?_⟩
  rw [daysInMonth_monthLen _ _ h1 h2]
  exact h4

/-- Year bound for day numbers within the JS `Date` range (±1e8 days). -/
theorem civilFromDays_year_bound (z : Int) (h1 : -100000001 ≤ z) (h2 : z ≤ 100000001) :
    -999999 ≤ (civilFromDays z).1 ∧ (civilFromDays z).1 ≤ 999999 := by
  have ey : (civilFromDays z).1 =
      400 * ((z + 719528) / 146097) + (yearInEraSearch (((z + 719528) % 146097).toNat) 399 : Int) :=
    rfl
  have hyle := yearInEraSearch_le (((z + 719528) % 146097).toNat) 399
  rw [ey]
  omega

/-! ## ISO date strings

`formatDate` below is `Chart.tsx`'s helper
`(epoch) => new Date(epoch * 1000).toISOString().split('T')[0]`:
epoch seconds × 1000 as milliseconds, floored to a UTC day number
(ECMA-262 Day(t)), printed as the ISO calendar date (`YYYY-MM-DD`, or the
expanded `±YYYYYY-MM-DD` form outside years 0-9999).

`parseDateMs` models `new Date(s).getTime()` (ECMA-262 parsing of the
Date Time String Format) on the string shapes relevant here: date-only
forms are UTC, a date-time needs its `Z` designator to be
environment-independent.  Strings outside the modelled grammar
(including the other host-specific shapes a JS engine may accept) are
mapped to `none`, the model of `NaN`. -/

/-- The character of a decimal digit. -/
def digitChar (n : Nat) : Char := Char.ofNat (48 + n % 10)

/-- Two-digit zero-padded print. -/
def pad2 (n : Nat) : List Char := [digitChar (n / 10), digitChar n]

/-- Four-digit zero-padded print. -/
def pad4 (n : Nat) : List Char :=
  [digitChar (n / 1000), digitChar (n / 100), digitChar (n / 10), digitChar n]

/-- Six-digit zero-padded print. -/
def pad6 (n : Nat) : List Char :=
  [digitChar (n / 100000), digitChar (n / 10000), digitChar (n / 1000),
    digitChar (n / 100), digitChar (n / 10), digitChar n]

/-- The year field of `toISOString`: four digits, or the expanded
    six-digit signed form outside 0-9999. -/
def yearChars (y : Int) : List Char :=
  if 0 ≤ y ∧ y ≤ 9999 then pad4 y.toNat
  else if y < 0 then '-' :: pad6 (-y).toNat
  else '+' :: pad6 y.toNat

/-- The ISO calendar-date string of a UTC day number. -/
def stringOfDay (day : Int) : String :=
  String.mk (yearChars (civilFromDays day).1 ++
    ('-' :: pad2 (civilFromDays day).2.1) ++ ('-' :: pad2 (civilFromDays day).2.2))

/-- `formatDate` from `Chart.tsx`:
    `new Date(epoch * 1000).toISOString().split('T')[0]`. -/
def formatDate (epoch : Int) : String :=
  stringOfDay ((epoch * 1000) / 86400000)

/-- Decimal value of a digit character. -/
def digit? (c : Char) : Option Nat :=
  if '0' ≤ c ∧ c ≤ '9' then some (c.toNat - 48) else none

/-- Read exactly `k` decimal digits. -/
def readDigits : Nat → Nat → List Char → Option (Nat × List Char)
  | 0, acc, cs => some (acc, cs)
  | k + 1, acc, cs =>
    match cs with
    | [] => none
    | c :: rest =>
      match digit? c with
      | some d => readDigits k (acc * 10 + d) rest
      | none => none

/-- Optional `:SS` / `:SS.mmm` part of a time. -/
def parseTimeTail (cs : List Char) : Option (Nat × Nat × List Char) :=
  match cs with
  | ':' :: rest =>
    match readDigits 2 0 rest with
    | some (ss, rest2) =>
      match rest2 with
      | '.' :: rest3 =>
        match readDigits 3 0 rest3 with
        | some (ms, rest4) => some (ss, ms, rest4)
        | none => none
      | _ => some (ss, 0, rest2)
    | none => none
  | _ => some (0, 0, cs)

/-- `HH:MM[:SS[.mmm]]Z` time-of-day, in milliseconds. -/
def parseTime (cs : List Char) : Option Int :=
  match readDigits 2 0 cs with
  | some (hh, rest) =>
    match rest with
    | ':' :: rest1 =>
      match readDigits 2 0 rest1 with
      | some (mi, rest2) =>
        match parseTimeTail rest2 with
        | some (ss, ms, rest3) =>
          match rest3 with
          | ['Z'] =>
            if hh ≤ 23 ∧ mi ≤ 59 ∧ ss ≤ 59 then
              some (3600000 * hh + 60000 * mi + 1000 * ss + ms)
            else none
          | _ => none
        | none => none
      | none => none
    | _ => none
  | none => none

/-- The year field: `YYYY` or signed expanded `±YYYYYY`. -/
def parseYear (cs : List Char) : Option (Int × List Char) :=
  if cs.headD 'x' = '+' then
    match readDigits 6 0 cs.tail with
    | some (y, rest2) => some ((y : Int), rest2)
    | none => none
  else if cs.headD 'x' = '-' then
    match readDigits 6 0 cs.tail with
    | some (y, rest2) => if y = 0 then none else some (-(y : Int), rest2)
    | none => none
  else
    match readDigits 4 0 cs with
    | some (y, rest2) => some ((y : Int), rest2)
    | none => none

/-- After `±Y*-MM-DD`: validate the date and handle the optional
    `T`-time part (which must carry the UTC designator). -/
def parseDayTail (y : Int) (m d : Nat) (rest4 : List Char) : Option Int :=
  if 1 ≤ m ∧ m ≤ 12 ∧ 1 ≤ d ∧ d ≤ daysInMonth y m then
    if rest4 = [] then some (86400000 * daysFromCivil y m d)
    else if rest4.headD 'x' = 'T' then
      match parseTime rest4.tail with
      | some tms => some (86400000 * daysFromCivil y m d + tms)
      | none => none
    else none
  else none

/-- After `±Y*-MM`: a `-` then the two-digit day. -/
def parseMonthTail (y : Int) (m : Nat) (rest2 : List Char) : Option Int :=
  if rest2.headD 'x' = '-' then
    match readDigits 2 0 rest2.tail with
    | some (d, rest4) => parseDayTail y m d rest4
    | none => none
  else none

/-- After the year: a `-` then the two-digit month. -/
def parseAfterYear (y : Int) (rest : List Char) : Option Int :=
  if rest.headD 'x' = '-' then
    match readDigits 2 0 rest.tail with
    | some (m, rest2) => parseMonthTail y m rest2
    | none => none
  else none

/-- `new Date(s).getTime()` on the modelled ISO grammar: milliseconds
    since the epoch, `none` for `NaN`. -/
def parseDateMs (s : String) : Option Int :=
  match parseYear s.toList with
  | some (y, rest) => parseAfterYear y rest
  | none => none

theorem digit?_digitChar (n : Nat) : digit? (digitChar n) = some (n % 10) := by
  have h : n % 10 < 10 := Nat.mod_lt _ (by omega)
  unfold digitChar
  generalize hk : n % 10 = k at h ⊢
  interval_cases k <;> decide

theorem readDigits_pad2 (m : Nat) (hm : m ≤ 99) (acc : Nat) (rest : List Char) :
    readDigits 2 acc (pad2 m ++ rest) = some (acc * 100 + m, rest) := by
  have h1 : (m / 10) % 10 = m / 10 := by omega
  simp only [pad2, List.cons_append, List.nil_append, readDigits, digit?_digitChar, h1]
  congr 1
  congr 1
  omega

theorem readDigits_pad4 (m : Nat) (hm : m ≤ 9999) (rest : List Char) :
    readDigits 4 0 (pad4 m ++ rest) = some (m, rest) := by
  have h1 : (m / 1000) % 10 = m / 1000 := by omega
  simp only [pad4, List.cons_append, List.nil_append, readDigits, digit?_digitChar, h1]
  congr 1
  congr 1
  omega

theorem readDigits_pad6 (m : Nat) (hm : m ≤ 999999) (rest : List Char) :
    readDigits 6 0 (pad6 m ++ rest) = some (m, rest) := by
  have h1 : (m / 100000) % 10 = m / 100000 := by omega
  simp only [pad6, List.cons_append, List.nil_append, readDigits, digit?_digitChar, h1]
  congr 1
  congr 1
  omega

theorem digitChar_toNat (n : Nat) : (digitChar n).toNat = 48 + n % 10 := by
  have h : n % 10 < 10 := Nat.mod_lt _ (by omega)
  unfold digitChar
  generalize hk : n % 10 = k at h ⊢
  interval_cases k <;> decide

theorem digitChar_ne_plus (n : Nat) : digitChar n ≠ '+' := by
  intro h
  have h1 := digitChar_toNat n
  rw [h] at h1
  have h2 : ('+').toNat = 43 := rfl
  omega

theorem digitChar_ne_minus (n : Nat) : digitChar n ≠ '-' := by
  intro h
  have h1 := digitChar_toNat n
  rw [h] at h1
  have h2 : ('-').toNat = 45 := rfl
  omega

theorem readDigits2_pad2 (m : Nat) (hm : m ≤ 99) (rest : List Char) :
    readDigits 2 0 (pad2 m ++ rest) = some (m, rest) := by
  simpa using readDigits_pad2 m hm 0 rest

theorem parseYear_not_sign (c : Char) (cs : List Char) (h1 : c ≠ '+') (h2 : c ≠ '-') :
    parseYear (c :: cs) =
      (match readDigits 4 0 (c :: cs) with
        | some (y, rest2) => some ((y : Int), rest2)
        | none => none) := by
  unfold parseYear
  simp only [List.headD_cons, List.tail_cons]
  rw [if_neg h1, if_neg h2]

theorem parseYear_yearChars (y : Int) (h1 : -999999 ≤ y) (h2 : y ≤ 999999)
    (rest : List Char) :
    parseYear (yearChars y ++ rest) = some (y, rest) := by
  unfold yearChars
  by_cases hc : 0 ≤ y ∧ y ≤ 9999
  · rw [if_pos hc]
    have e : pad4 y.toNat ++ rest =
        digitChar (y.toNat / 1000) ::
          ([digitChar (y.toNat / 100), digitChar (y.toNat / 10), digitChar y.toNat] ++ rest) :=
      rfl
    rw [e, parseYear_not_sign _ _ (digitChar_ne_plus _) (digitChar_ne_minus _), ← e,
      readDigits_pad4 y.toNat (by omega) rest]
    simp
    omega
  · rw [if_neg hc]
    by_cases hneg : y < 0
    · rw [if_pos hneg]
      have e : ('-' :: pad6 (-y).toNat) ++ rest = '-' :: (pad6 (-y).toNat ++ rest) := rfl
      rw [e]
      unfold parseYear
      simp only [List.headD_cons, List.tail_cons]
      rw [if_pos trivial, readDigits_pad6 (-y).toNat (by omega) rest]
      have hz : ¬((-y).toNat = 0) := by omega
      simp [hz]
      omega
    · rw [if_neg hneg]
      have e : ('+' :: pad6 y.toNat) ++ rest = '+' :: (pad6 y.toNat ++ rest) := rfl
      rw [e]
      unfold parseYear
      simp only [List.headD_cons, List.tail_cons]
      rw [if_pos trivial, readDigits_pad6 y.toNat (by omega) rest]
      simp
      omega

theorem parseDateMs_some (s : String) (y : Int) (rest : List Char)
    (h : parseYear s.toList = some (y, rest)) :
    parseDateMs s = parseAfterYear y rest := by
  unfold parseDateMs
  rw [h]

/-- `parseDateMs` inverts `stringOfDay` on the JS-representable day range. -/
theorem parseDateMs_stringOfDay (day : Int) (hl : -100000001 ≤ day) (hr : day ≤ 100000001) :
    parseDateMs (stringOfDay day) = some (86400000 * day) := by
  obtain ⟨hm1, hm2, hd1, hd2⟩ := civilFromDays_valid day
  obtain ⟨hy1, hy2⟩ := civilFromDays_year_bound day hl hr
  have hdm : daysInMonth (civilFromDays day).1 (civilFromDays day).2.1 ≤ 31 := by
    unfold daysInMonth; split_ifs <;> omega
  have htl : (stringOfDay day).toList =
      yearChars (civilFromDays day).1 ++
        ('-' :: (pad2 (civilFromDays day).2.1 ++ ('-' :: pad2 (civilFromDays day).2.2))) := by
    show (yearChars (civilFromDays day).1 ++
        ('-' :: pad2 (civilFromDays day).2.1) ++ ('-' :: pad2 (civilFromDays day).2.2)) = _
    simp [List.append_assoc]
  have hpy : parseYear (stringOfDay day).toList =
      some ((civilFromDays day).1,
        '-' :: (pad2 (civilFromDays day).2.1 ++ ('-' :: pad2 (civilFromDays day).2.2))) := by
    rw [htl]
    exact parseYear_yearChars _ (by omega) (by omega) _
  rw [parseDateMs_some _ _ _ hpy]
  unfold parseAfterYear
  rw [show (('-' : Char) :: (pad2 (civilFromDays day).2.1 ++
      ('-' :: pad2 (civilFromDays day).2.2))).headD 'x' = '-' from rfl]
  rw [if_pos rfl]
  rw [show (('-' : Char) :: (pad2 (civilFromDays day).2.1 ++
      ('-' :: pad2 (civilFromDays day).2.2))).tail =
    pad2 (civilFromDays day).2.1 ++ ('-' :: pad2 (civilFromDays day).2.2) from rfl]
  rw [readDigits2_pad2 _ (by omega) _]
  show parseMonthTail (civilFromDays day).1 (civilFromDays day).2.1
      ('-' :: pad2 (civilFromDays day).2.2) = _
  unfold parseMonthTail
  rw [show (('-' : Char) :: pad2 (civilFromDays day).2.2).headD 'x' = '-' from rfl]
  rw [if_pos rfl]
  rw [show (('-' : Char) :: pad2 (civilFromDays day).2.2).tail =
    pad2 (civilFromDays day).2.2 ++ ([] : List Char) from by simp]
  rw [readDigits2_pad2 _ (by omega) _]
  show parseDayTail (civilFromDays day).1 (civilFromDays day).2.1 (civilFromDays day).2.2 [] = _
  unfold parseDayTail
  rw [if_pos ⟨hm1, hm2, hd1, hd2⟩, if_pos rfl, daysFromCivil_civilFromDays]

/-! ## List machinery for the JS runtime structures

* `sortBy` — a stable sort, modelling `Array.prototype.sort` under the
  component's comparators.  Both comparators subtract parsed dates, so a
  comparison involving an unparseable date yields `NaN`; a sort
  implementation treats a `NaN` comparator result like `0` (neither
  `< 0` nor `> 0`), i.e. as a tie, which is how `dateLeStr` models it.
* `dedupKeepFirst` — `new Set(...)` insertion-order semantics: keeps the
  first occurrence of each element.
* `updAssoc` — assignment `obj[k] = v` on a string-keyed JS object:
  overwrites in place if the key exists (keeping its position in the
  key order), otherwise appends. -/

/-- Insert `x` into `l`, before the first element `y` with `le x y`. -/
def insertBy {α : Type} (le : α → α → Bool) (x : α) : List α → List α
  | [] => [x]
  | y :: ys => if le x y then x :: y :: ys else y :: insertBy le x ys

/-- Stable insertion sort. -/
def sortBy {α : Type} (le : α → α → Bool) (l : List α) : List α :=
  l.foldr (insertBy le) []

/-- Elements of `l` not in `seen`, first occurrences only, in order. -/
def dedupAux (seen : List String) : List String → List String
  | [] => []
  | x :: xs => if x ∈ seen then dedupAux seen xs else x :: dedupAux (x :: seen) xs

/-- `Array.from(new Set(l))`: first occurrences, in insertion order. -/
def dedupKeepFirst (l : List String) : List String := dedupAux [] l

/-- JS object assignment on a string-keyed object in key-insertion order. -/
def updAssoc : List (String × Rat) → String → Rat → List (String × Rat)
  | [], k, v => [(k, v)]
  | (k2, v2) :: rest, k, v =>
    if k2 = k then (k, v) :: rest else (k2, v2) :: updAssoc rest k v

/-! ## The data model of `Chart.tsx` -/

/-- `action: 'B' | 'S'` — only these two variants exist. -/
inductive TxAction where
  | B
  | S
deriving DecidableEq

/-- The `Transaction` interface.  Share counts are `Int` (JS `number`
    used integrally), prices `Rat`. -/
structure Transaction where
  action : TxAction
  date : String
  price : Rat
  quantity : Int
  positionAveragePrice : Option Rat := none
deriving DecidableEq

/-- One value of the `StockPriceData` record: `{close, timestamp}`.
    The record's keys are never read by the code (only `Object.entries`
    values are used), so the fetched table is embedded as the list of
    its entries in iteration order. -/
structure StockPriceEntry where
  close : Rat
  timestamp : Int
deriving DecidableEq

/-- The fetched price table, as its entries in iteration order. -/
abbrev StockPriceData := List StockPriceEntry

/-- The `PortfolioValueData` output interface: `{date, value}`. -/
structure PortfolioValueData where
  date : String
  value : Rat
deriving DecidableEq

/-! ## `calculatePortfolioValue`, stage by stage -/

/-- The comparator `(a, b) => new Date(a).getTime() - new Date(b).getTime()`
    as a "sorts-no-later-than" test: on two parseable dates it is the
    numeric order of their times; a `NaN` comparison is a tie. -/
def dateLeStr (a b : String) : Bool :=
  match parseDateMs a, parseDateMs b with
  | some x, some y => x ≤ y
  | _, _ => true

/-- The transaction comparator of `calculatePortfolioValue`. -/
def txLe (a b : Transaction) : Bool := dateLeStr a.date b.date

/-- `const sortedTransactions = [...transactions].sort((a, b) => ...)`. -/
def sortedTransactionsOf (transactions : List Transaction) : List Transaction :=
  sortBy txLe transactions

/-- `formattedStockPrices`: day-keyed closes, built by
    `Object.entries(stockPrices).forEach(([epoch, priceData]) => ...)`
    with `formattedStockPrices[formatDate(priceData.timestamp)] = priceData.close`. -/
def formattedStockPricesOf (stockPrices : StockPriceData) : List (String × Rat) :=
  stockPrices.foldl (fun acc p => updAssoc acc (formatDate p.timestamp) p.close) []

/-- `allDates = new Set([...sortedTransactions.map(t => t.date),
    ...Object.keys(formattedStockPrices)])`, in insertion order. -/
def allDatesOf (transactions : List Transaction) (stockPrices : StockPriceData) :
    List String :=
  dedupKeepFirst ((sortedTransactionsOf transactions).map (fun t => t.date) ++
    (formattedStockPricesOf stockPrices).map (fun p => p.1))

/-- `sortedDates = Array.from(allDates).sort((a, b) => ...)`. -/
def sortedDatesOf (transactions : List Transaction) (stockPrices : StockPriceData) :
    List String :=
  sortBy dateLeStr (allDatesOf transactions stockPrices)

/-- One day's transaction processing:
    `sortedTransactions.filter(t => t.date === date).forEach(...)`,
    adding `quantity` on `'B'`, subtracting on `'S'`. -/
def applyDay (txs : List Transaction) (date : String) (shares : Int) : Int :=
  (txs.filter (fun t => t.date == date)).foldl
    (fun s t =>
      match t.action with
      | TxAction.B => s + t.quantity
      | TxAction.S => s - t.quantity)
    shares

/-- `obj[k]` on a string-keyed JS object (association list). -/
def lookupD : List (String × Rat) → String → Option Rat
  | [], _ => none
  | (k, v) :: rest, d => if k = d then some v else lookupD rest d

/-- The body of `sortedDates.forEach(date => ...)`: update `currentShares`,
    then push `{date, value: currentShares * stockPrice}` when the day has
    a price and `currentShares > 0`. -/
def walkStep (txs : List Transaction) (fmt : List (String × Rat)) :
    Int × List PortfolioValueData → String → Int × List PortfolioValueData :=
  fun st date =>
    let shares := applyDay txs date st.1
    match lookupD fmt date with
    | some price =>
      if 0 < shares then (shares, st.2 ++ [⟨date, (shares : Rat) * price⟩])
      else (shares, st.2)
    | none => (shares, st.2)

/-- `calculatePortfolioValue` from `Chart.tsx`. -/
def calculatePortfolioValue (transactions : List Transaction)
    (stockPrices : StockPriceData) : List PortfolioValueData :=
  ((sortedDatesOf transactions stockPrices).foldl
    (walkStep (sortedTransactionsOf transactions) (formattedStockPricesOf stockPrices))
    (0, [])).2

/-- Running share count after folding `applyDay` over `days`, from `shares`. -/
def runShares (txs : List Transaction) (shares : Int) (days : List String) : Int :=
  days.foldl (fun s d => applyDay txs d s) shares

/-! ## The specification-side walk (claim C1's description)

`specWalk` renders the spec's step 4 directly: walk the sorted day set
once with a running integer share count starting from the given value;
on each day first apply that day's transactions, then emit
`{date: day, value: sharesHeld * price}` exactly when the day has a
price and the updated share count is positive. -/

/-- The walk described by the specification. -/
def specWalk (txs : List Transaction) (fmt : List (String × Rat)) (shares : Int) :
    List String → List PortfolioValueData
  | [] => []
  | d :: ds =>
    let s2 := applyDay txs d shares
    match lookupD fmt d with
    | some price =>
      if 0 < s2 then ⟨d, (s2 : Rat) * price⟩ :: specWalk txs fmt s2 ds
      else specWalk txs fmt s2 ds
    | none => specWalk txs fmt s2 ds

theorem foldl_walkStep_eq (txs : List Transaction) (fmt : List (String × Rat)) :
    ∀ (days : List String) (s : Int) (acc : List PortfolioValueData),
      days.foldl (walkStep txs fmt) (s, acc) =
        (runShares txs s days, acc ++ specWalk txs fmt s days) := by
  intro days
  induction days with
  | nil => intro s acc; simp [runShares, specWalk]
  | cons d ds ih =>
    intro s acc
    rw [List.foldl_cons]
    have hw : walkStep txs fmt (s, acc) d =
        (applyDay txs d s,
          match lookupD fmt d with
          | some price =>
            if 0 < applyDay txs d s then acc ++ [⟨d, (applyDay txs d s : Rat) * price⟩]
            else acc
          | none => acc) := by
      unfold walkStep
      rcases lookupD fmt d with _ | price
      · rfl
      · by_cases hs : 0 < applyDay txs d s
        · simp only [if_pos hs]
        · simp only [if_neg hs]
    rw [hw]
    have hrun : runShares txs s (d :: ds) = runShares txs (applyDay txs d s) ds := rfl
    rw [hrun, ih]
    rcases hL : lookupD fmt d with _ | price
    · simp [specWalk, hL]
    · by_cases hs : 0 < applyDay txs d s <;> simp [specWalk, hL, hs]

/-- `calculatePortfolioValue` is exactly the specification's walk, run on
    the code's sorted day set, day-keyed prices and sorted transactions,
    with `sharesHeld` starting at 0. -/
theorem calculatePortfolioValue_eq_specWalk (transactions : List Transaction)
    (stockPrices : StockPriceData) :
    calculatePortfolioValue transactions stockPrices =
      specWalk (sortedTransactionsOf transactions) (formattedStockPricesOf stockPrices) 0
        (sortedDatesOf transactions stockPrices) := by
  unfold calculatePortfolioValue
  rw [foldl_walkStep_eq]
  simp

/-- Every emitted point's date is a day of the walked list, with a price. -/
theorem specWalk_mem_date (txs : List Transaction) (fmt : List (String × Rat)) :
    ∀ (days : List String) (s : Int) (pt : PortfolioValueData),
      pt ∈ specWalk txs fmt s days →
        pt.date ∈ days ∧ ∃ pr, lookupD fmt pt.date = some pr := by
  intro days
  induction days with
  | nil => intro s pt h; simp [specWalk] at h
  | cons d ds ih =>
    intro s pt h
    rcases hL : lookupD fmt d with _ | price <;> simp only [specWalk, hL] at h
    · obtain ⟨h1, h2⟩ := ih _ pt h
      exact ⟨List.mem_cons_of_mem _ h1, h2⟩
    · by_cases hs : 0 < applyDay txs d s
      · rw [if_pos hs] at h
        rcases List.mem_cons.mp h with h | h
        · subst h
          exact ⟨List.mem_cons_self _ _, price, hL⟩
        · obtain ⟨h1, h2⟩ := ih _ pt h
          exact ⟨List.mem_cons_of_mem _ h1, h2⟩
      · rw [if_neg hs] at h
        obtain ⟨h1, h2⟩ := ih _ pt h
        exact ⟨List.mem_cons_of_mem _ h1, h2⟩

/-- The emitted date sequence is a subsequence of the walked day list. -/
theorem specWalk_dates_sublist (txs : List Transaction) (fmt : List (String × Rat)) :
    ∀ (days : List String) (s : Int),
      ((specWalk txs fmt s days).map (fun pt => pt.date)).Sublist days := by
  intro days
  induction days with
  | nil => intro s; simp [specWalk]
  | cons d ds ih =>
    intro s
    rcases hL : lookupD fmt d with _ | price <;> simp only [specWalk, hL]
    · exact List.Sublist.cons d (ih _)
    · by_cases hs : 0 < applyDay txs d s
      · rw [if_pos hs]
        simpa using List.Sublist.cons₂ d (ih _)
      · rw [if_neg hs]
        exact List.Sublist.cons d (ih _)

/-- Each emitted point arises at its day's position: its value is the
    running share count after that day (started from `s` over the
    preceding days) times the day's price, and that count is positive. -/
theorem specWalk_mem_decomp (txs : List Transaction) (fmt : List (String × Rat)) :
    ∀ (days : List String) (s : Int) (pt : PortfolioValueData),
      pt ∈ specWalk txs fmt s days →
        ∃ pre suf pr, days = pre ++ pt.date :: suf ∧
          lookupD fmt pt.date = some pr ∧
          0 < runShares txs s (pre ++ [pt.date]) ∧
          pt.value = (runShares txs s (pre ++ [pt.date]) : Rat) * pr := by
  intro days
  induction days with
  | nil => intro s pt h; simp [specWalk] at h
  | cons d ds ih =>
    intro s pt h
    have hstep : pt ∈ specWalk txs fmt (applyDay txs d s) ds →
        ∃ pre suf pr, d :: ds = pre ++ pt.date :: suf ∧
          lookupD fmt pt.date = some pr ∧
          0 < runShares txs s (pre ++ [pt.date]) ∧
          pt.value = (runShares txs s (pre ++ [pt.date]) : Rat) * pr := by
      intro hmem
      obtain ⟨pre, suf, pr, he, hl, hpos, hval⟩ := ih (applyDay txs d s) pt hmem
      exact ⟨d :: pre, suf, pr, by simp [he], hl, hpos, hval⟩
    rcases hL : lookupD fmt d with _ | price <;> simp only [specWalk, hL] at h
    · exact hstep h
    · by_cases hs : 0 < applyDay txs d s
      · rw [if_pos hs] at h
        rcases List.mem_cons.mp h with h | h
        · subst h
          refine ⟨[], ds, price, rfl, hL, ?_, rfl⟩
          simpa [runShares] using hs
        · exact hstep h
      · rw [if_neg hs] at h
        exact hstep h

/-- No point is emitted for a day whose running share count (after that
    day's transactions) is not positive. -/
theorem specWalk_guard (txs : List Transaction) (fmt : List (String × Rat)) :
    ∀ (pre : List String) (d : String) (suf : List String) (s : Int),
      (pre ++ d :: suf).Nodup →
      runShares txs s (pre ++ [d]) ≤ 0 →
      ∀ pt ∈ specWalk txs fmt s (pre ++ d :: suf), pt.date ≠ d := by
  intro pre
  induction pre with
  | nil =>
    intro d suf s hnd hle pt hmem heq
    have hs : applyDay txs d s ≤ 0 := by simpa [runShares] using hle
    rw [List.nil_append] at hmem
    rcases hL : lookupD fmt d with _ | price <;> simp only [specWalk, hL] at hmem
    · obtain ⟨h1, _⟩ := specWalk_mem_date txs fmt suf _ pt hmem
      rw [List.nil_append] at hnd
      exact (List.nodup_cons.mp hnd).1 (heq ▸ h1)
    · rw [if_neg (by omega)] at hmem
      obtain ⟨h1, _⟩ := specWalk_mem_date txs fmt suf _ pt hmem
      rw [List.nil_append] at hnd
      exact (List.nodup_cons.mp hnd).1 (heq ▸ h1)
  | cons x pre ih =>
    intro d suf s hnd hle pt hmem heq
    rw [List.cons_append] at hmem hnd
    have hxd : x ≠ d := by
      intro hxeq
      subst hxeq
      exact (List.nodup_cons.mp hnd).1 (by simp)
    have hrun : runShares txs s ((x :: pre) ++ [d]) =
        runShares txs (applyDay txs x s) (pre ++ [d]) := rfl
    rw [hrun] at hle
    rcases hL : lookupD fmt x with _ | price <;> simp only [specWalk, hL] at hmem
    · exact ih d suf _ (List.nodup_cons.mp hnd).2 hle pt hmem heq
    · by_cases hs : 0 < applyDay txs x s
      · rw [if_pos hs] at hmem
        rcases List.mem_cons.mp hmem with h | h
        · rw [h] at heq
          exact hxd heq
        · exact ih d suf _ (List.nodup_cons.mp hnd).2 hle pt h heq
      · rw [if_neg hs] at hmem
        exact ih d suf _ (List.nodup_cons.mp hnd).2 hle pt hmem heq

/-! ## Sorting, dedup and key-map lemmas -/

theorem insertBy_perm {α : Type} (le : α → α → Bool) (x : α) (l : List α) :
    (insertBy le x l).Perm (x :: l) := by
  induction l with
  | nil => simp [insertBy]
  | cons y ys ih =>
    unfold insertBy
    by_cases h : le x y
    · rw [if_pos h]
    · rw [if_neg h]
      exact (List.Perm.cons y ih).trans (List.Perm.swap x y ys)

theorem sortBy_perm {α : Type} (le : α → α → Bool) (l : List α) :
    (sortBy le l).Perm l := by
  induction l with
  | nil => simp [sortBy]
  | cons y ys ih =>
    have : sortBy le (y :: ys) = insertBy le y (sortBy le ys) := rfl
    rw [this]
    exact ((insertBy_perm le y (sortBy le ys)).trans (List.Perm.cons y ih))

theorem mem_sortBy {α : Type} (le : α → α → Bool) (l : List α) (x : α) :
    x ∈ sortBy le l ↔ x ∈ l :=
  (sortBy_perm le l).mem_iff

theorem mem_insertBy {α : Type} (le : α → α → Bool) (x z : α) (l : List α) :
    z ∈ insertBy le x l ↔ z = x ∨ z ∈ l := by
  rw [(insertBy_perm le x l).mem_iff, List.mem_cons]

theorem insertBy_pairwise {α : Type} (le : α → α → Bool) (P : α → Prop)
    (htot : ∀ a b, le a b = true ∨ le b a = true)
    (htrans : ∀ a b c, P a → P b → P c → le a b = true → le b c = true → le a c = true)
    (x : α) (l : List α) (hx : P x) (hl : ∀ y ∈ l, P y)
    (hs : l.Pairwise (fun a b => le a b = true)) :
    (insertBy le x l).Pairwise (fun a b => le a b = true) := by
  induction l with
  | nil => simp [insertBy]
  | cons y ys ih =>
    have hy : P y := hl y (by simp)
    have hys : ∀ z ∈ ys, P z := fun z hz => hl z (by simp [hz])
    obtain ⟨hy_ys, hys_pw⟩ := List.pairwise_cons.mp hs
    unfold insertBy
    by_cases h : le x y
    · rw [if_pos h]
      refine List.pairwise_cons.mpr ⟨?_, hs⟩
      intro z hz
      rcases List.mem_cons.mp hz with rfl | hz
      · exact h
      · exact htrans x y z hx hy (hys z hz) h (hy_ys z hz)
    · rw [if_neg h]
      have hyx : le y x = true := by
        rcases htot x y with h2 | h2
        · exact absurd h2 h
        · exact h2
      refine List.pairwise_cons.mpr ⟨?_, ih hys hys_pw⟩
      intro z hz
      rcases (mem_insertBy le x z ys).mp hz with rfl | hz
      · exact hyx
      · exact hy_ys z hz

theorem sortBy_pairwise {α : Type} (le : α → α → Bool) (P : α → Prop)
    (htot : ∀ a b, le a b = true ∨ le b a = true)
    (htrans : ∀ a b c, P a → P b → P c → le a b = true → le b c = true → le a c = true)
    (l : List α) (hl : ∀ y ∈ l, P y) :
    (sortBy le l).Pairwise (fun a b => le a b = true) := by
  induction l with
  | nil => simp [sortBy]
  | cons y ys ih =>
    have : sortBy le (y :: ys) = insertBy le y (sortBy le ys) := rfl
    rw [this]
    refine insertBy_pairwise le P htot htrans y (sortBy le ys) (hl y (by simp)) ?_ ?_
    · intro z hz
      exact hl z (by simp [(mem_sortBy le ys z).mp hz])
    · exact ih (fun z hz => hl z (by simp [hz]))

theorem mem_dedupAux (seen l : List String) (x : String) :
    x ∈ dedupAux seen l → x ∈ l ∧ x ∉ seen := by
  induction l generalizing seen with
  | nil => intro h; simp [dedupAux] at h
  | cons y ys ih =>
    intro h
    unfold dedupAux at h
    by_cases hy : y ∈ seen
    · rw [if_pos hy] at h
      obtain ⟨h1, h2⟩ := ih seen h
      exact ⟨by simp [h1], h2⟩
    · rw [if_neg hy] at h
      rcases List.mem_cons.mp h with rfl | h
      · exact ⟨by simp, hy⟩
      · obtain ⟨h1, h2⟩ := ih (y :: seen) h
        refine ⟨by simp [h1], fun hc => h2 (by simp [hc])⟩

theorem mem_dedupAux_of (seen l : List String) (x : String) :
    x ∈ l → x ∉ seen → x ∈ dedupAux seen l := by
  induction l generalizing seen with
  | nil => intro h; simp at h
  | cons y ys ih =>
    intro hmem hns
    unfold dedupAux
    by_cases hy : y ∈ seen
    · rw [if_pos hy]
      rcases List.mem_cons.mp hmem with rfl | h
      · exact absurd hy hns
      · exact ih seen h hns
    · rw [if_neg hy]
      rcases List.mem_cons.mp hmem with rfl | h
      · simp
      · by_cases hxy : x = y
        · simp [hxy]
        · exact List.mem_cons_of_mem _ (ih (y :: seen) h (by simp [hxy, hns]))

theorem dedupAux_nodup (seen l : List String) : (dedupAux seen l).Nodup := by
  induction l generalizing seen with
  | nil => simp [dedupAux]
  | cons y ys ih =>
    unfold dedupAux
    by_cases hy : y ∈ seen
    · rw [if_pos hy]; exact ih seen
    · rw [if_neg hy]
      refine List.nodup_cons.mpr ⟨?_, ih (y :: seen)⟩
      intro hc
      exact (mem_dedupAux _ _ _ hc).2 (by simp)

theorem mem_dedupKeepFirst (l : List String) (x : String) :
    x ∈ dedupKeepFirst l ↔ x ∈ l := by
  constructor
  · intro h; exact (mem_dedupAux [] l x h).1
  · intro h; exact mem_dedupAux_of [] l x h (by simp)

theorem dedupKeepFirst_nodup (l : List String) : (dedupKeepFirst l).Nodup :=
  dedupAux_nodup [] l

theorem lookupD_updAssoc (l : List (String × Rat)) (k : String) (v : Rat) (k2 : String) :
    lookupD (updAssoc l k v) k2 = if k = k2 then some v else lookupD l k2 := by
  induction l with
  | nil => simp [updAssoc, lookupD]
  | cons p rest ih =>
    obtain ⟨k3, v3⟩ := p
    unfold updAssoc
    by_cases h3 : k3 = k
    · rw [if_pos h3]
      subst h3
      by_cases h : k3 = k2 <;> simp [lookupD, h]
    · rw [if_neg h3]
      by_cases h : k3 = k2
      · subst h
        rw [if_neg (fun hc => h3 hc.symm)]
        simp [lookupD]
      · simp [lookupD, h, ih]

theorem keys_updAssoc (l : List (String × Rat)) (k : String) (v : Rat) (x : String) :
    x ∈ (updAssoc l k v).map (fun p => p.1) → x = k ∨ x ∈ l.map (fun p => p.1) := by
  induction l with
  | nil =>
    intro h
    simp [updAssoc] at h
    exact Or.inl h
  | cons p rest ih =>
    obtain ⟨k3, v3⟩ := p
    intro h
    by_cases h3 : k3 = k
    · have e : updAssoc ((k3, v3) :: rest) k v = (k, v) :: rest := by
        simp only [updAssoc]; rw [if_pos h3]
      rw [e] at h
      simp only [List.map_cons, List.mem_cons] at h ⊢
      rcases h with h | h
      · exact Or.inl h
      · exact Or.inr (Or.inr h)
    · have e : updAssoc ((k3, v3) :: rest) k v = (k3, v3) :: updAssoc rest k v := by
        simp only [updAssoc]; rw [if_neg h3]
      rw [e] at h
      simp only [List.map_cons, List.mem_cons] at h ⊢
      rcases h with h | h
      · exact Or.inr (Or.inl h)
      · rcases ih h with h | h
        · exact Or.inl h
        · exact Or.inr (Or.inr h)

/-- Every key of the day-keyed price map is the ISO day of some entry. -/
theorem mem_keys_formatted (sp : StockPriceData) (x : String) :
    x ∈ (formattedStockPricesOf sp).map (fun p => p.1) →
      ∃ e ∈ sp, x = formatDate e.timestamp := by
  suffices hgen : ∀ acc : List (String × Rat),
      x ∈ ((sp.foldl (fun acc p => updAssoc acc (formatDate p.timestamp) p.close) acc).map
        (fun p => p.1)) →
        (∃ e ∈ sp, x = formatDate e.timestamp) ∨ x ∈ acc.map (fun p => p.1) by
    intro h
    rcases hgen [] h with h | h
    · exact h
    · simp at h
  intro acc
  induction sp generalizing acc with
  | nil => intro h; exact Or.inr h
  | cons e es ih =>
    intro h
    rw [List.foldl_cons] at h
    rcases ih _ h with h | h
    · obtain ⟨e2, he2, hd⟩ := h
      exact Or.inl ⟨e2, by simp [he2], hd⟩
    · rcases keys_updAssoc _ _ _ _ h with h | h
      · exact Or.inl ⟨e, by simp, h⟩
      · exact Or.inr h

/-- A day with a price in the day-keyed map is the ISO day of some entry. -/
theorem lookupD_formatted_some (sp : StockPriceData) (d : String) (v : Rat) :
    lookupD (formattedStockPricesOf sp) d = some v →
      ∃ e ∈ sp, d = formatDate e.timestamp := by
  suffices hgen : ∀ acc : List (String × Rat),
      lookupD (sp.foldl (fun acc p => updAssoc acc (formatDate p.timestamp) p.close) acc) d
          = some v →
        (∃ e ∈ sp, d = formatDate e.timestamp) ∨ lookupD acc d = some v by
    intro h
    rcases hgen [] h with h | h
    · exact h
    · simp [lookupD] at h
  intro acc
  induction sp generalizing acc with
  | nil => intro h; exact Or.inr h
  | cons e es ih =>
    intro h
    rw [List.foldl_cons] at h
    rcases ih _ h with h | h
    · obtain ⟨e2, he2, hd⟩ := h
      exact Or.inl ⟨e2, by simp [he2], hd⟩
    · rw [lookupD_updAssoc] at h
      by_cases hfd : formatDate e.timestamp = d
      · exact Or.inl ⟨e, by simp, hfd.symm⟩
      · rw [if_neg hfd] at h
        exact Or.inr h

/-- Last-write-wins: the day-keyed price of `d` is the close of the
    last-iterated entry whose ISO day is `d` (first match in reverse
    iteration order), if any. -/
theorem lookupD_formatted_lastWrite (sp : StockPriceData) (d : String) :
    lookupD (formattedStockPricesOf sp) d =
      (sp.reverse.find? (fun e => formatDate e.timestamp == d)).map (fun e => e.close) := by
  induction sp using List.reverseRecOn with
  | nil => simp [formattedStockPricesOf, lookupD]
  | append_singleton l e ih =>
    have hfmt : formattedStockPricesOf (l ++ [e]) =
        updAssoc (formattedStockPricesOf l) (formatDate e.timestamp) e.close := by
      unfold formattedStockPricesOf
      rw [List.foldl_append]
      rfl
    rw [hfmt, lookupD_updAssoc, List.reverse_append]
    simp only [List.reverse_singleton, List.singleton_append, List.find?_cons]
    by_cases hd : formatDate e.timestamp = d
    · rw [if_pos hd]
      have : (formatDate e.timestamp == d) = true := by simp [hd]
      rw [this]
      rfl
    · rw [if_neg hd]
      have : (formatDate e.timestamp == d) = false := by simp [hd]
      rw [this]
      exact ih

/-- The comparator test is total. -/
theorem dateLeStr_total (a b : String) : dateLeStr a b = true ∨ dateLeStr b a = true := by
  unfold dateLeStr
  rcases parseDateMs a with _ | x <;> rcases parseDateMs b with _ | y <;> simp
  omega

/-- The comparator test is transitive across parseable dates. -/
theorem dateLeStr_trans (a b c : String)
    (ha : (parseDateMs a).isSome = true) (hb : (parseDateMs b).isSome = true)
    (hc : (parseDateMs c).isSome = true) :
    dateLeStr a b = true → dateLeStr b c = true → dateLeStr a c = true := by
  unfold dateLeStr
  rcases hpa : parseDateMs a with _ | x
  · rw [hpa] at ha; simp at ha
  · rcases hpb : parseDateMs b with _ | y
    · rw [hpb] at hb; simp at hb
    · rcases hpc : parseDateMs c with _ | z
      · rw [hpc] at hc; simp at hc
      · simp
        omega

/-- Strictly-before on date strings: both parse, and the first is earlier. -/
def dateLtB (a b : String) : Bool :=
  match parseDateMs a, parseDateMs b with
  | some x, some y => decide (x < y)
  | _, _ => false

theorem dateLtB_irrefl (a : String) : dateLtB a a = false := by
  unfold dateLtB
  rcases parseDateMs a with _ | x <;> simp

/-- Under the claims' well-formedness hypotheses, every walked day parses. -/
theorem allDates_parse (tx : List Transaction) (sp : StockPriceData)
    (hdates : ∀ t ∈ tx, (parseDateMs t.date).isSome = true)
    (hts : ∀ e ∈ sp, -8640000000000000 ≤ e.timestamp * 1000 ∧
      e.timestamp * 1000 ≤ 8640000000000000) :
    ∀ d ∈ allDatesOf tx sp, (parseDateMs d).isSome = true := by
  intro d hd
  unfold allDatesOf at hd
  rw [mem_dedupKeepFirst] at hd
  rcases List.mem_append.mp hd with hd | hd
  · obtain ⟨t, ht, rfl⟩ := List.mem_map.mp hd
    exact hdates t ((mem_sortBy txLe tx t).mp ht)
  · obtain ⟨e, he, rfl⟩ := mem_keys_formatted sp d hd
    obtain ⟨hb1, hb2⟩ := hts e he
    rw [show formatDate e.timestamp = stringOfDay ((e.timestamp * 1000) / 86400000) from rfl,
      parseDateMs_stringOfDay _ (by omega) (by omega)]
    rfl

/-- The price stored for a day is the `close` of some entry of the table. -/
theorem lookupD_formatted_close (sp : StockPriceData) (d : String) (v : Rat) :
    lookupD (formattedStockPricesOf sp) d = some v → ∃ e ∈ sp, v = e.close := by
  intro h
  rw [lookupD_formatted_lastWrite] at h
  rcases hf : sp.reverse.find? (fun e => formatDate e.timestamp == d) with _ | e
  · rw [hf] at h; simp at h
  · rw [hf] at h
    simp at h
    exact ⟨e, by
      have := List.mem_of_find?_eq_some hf
      rwa [List.mem_reverse] at this, h.symm⟩

/-! ## The trade price is not used in valuation (claim C7) -/

/-- Agreement on every field `calculatePortfolioValue` reads: two
    transactions that may differ only in `price` and
    `positionAveragePrice`. -/
def StripEq (t1 t2 : Transaction) : Prop :=
  t1.action = t2.action ∧ t1.date = t2.date ∧ t1.quantity = t2.quantity

theorem txLe_stripEq {a1 a2 b1 b2 : Transaction} (ha : StripEq a1 a2) (hb : StripEq b1 b2) :
    txLe a1 b1 = txLe a2 b2 := by
  unfold txLe
  rw [ha.2.1, hb.2.1]

theorem insertBy_stripEq : ∀ {l1 l2 : List Transaction}, List.Forall₂ StripEq l1 l2 →
    ∀ {x1 x2 : Transaction}, StripEq x1 x2 →
      List.Forall₂ StripEq (insertBy txLe x1 l1) (insertBy txLe x2 l2) := by
  intro l1
  induction l1 with
  | nil =>
    intro l2 hl x1 x2 hx
    cases hl
    simpa [insertBy] using List.Forall₂.cons hx List.Forall₂.nil
  | cons y1 ys1 ih =>
    intro l2 hl x1 x2 hx
    cases hl with
    | cons hy hys =>
      rename_i y2 ys2
      unfold insertBy
      rw [txLe_stripEq hx hy]
      by_cases h : txLe x2 y2 = true
      · rw [if_pos h, if_pos h]
        exact List.Forall₂.cons hx (List.Forall₂.cons hy hys)
      · rw [if_neg h, if_neg h]
        exact List.Forall₂.cons hy (ih hys hx)

theorem sortBy_stripEq {l1 l2 : List Transaction} (hl : List.Forall₂ StripEq l1 l2) :
    List.Forall₂ StripEq (sortBy txLe l1) (sortBy txLe l2) := by
  induction hl with
  | nil => simp [sortBy]
  | cons hx hrest ih => exact insertBy_stripEq ih hx

theorem forall2_map_date {l1 l2 : List Transaction} (h : List.Forall₂ StripEq l1 l2) :
    l1.map (fun t => t.date) = l2.map (fun t => t.date) := by
  induction h with
  | nil => rfl
  | cons hy hrest ih => simp [ih, hy.2.1]

theorem applyDay_stripEq : ∀ {l1 l2 : List Transaction}, List.Forall₂ StripEq l1 l2 →
    ∀ (d : String) (s : Int), applyDay l1 d s = applyDay l2 d s := by
  intro l1
  induction l1 with
  | nil => intro l2 hl d s; cases hl; rfl
  | cons y1 ys1 ih =>
    intro l2 hl d s
    cases hl with
    | cons hy hys =>
      rename_i y2 ys2
      unfold applyDay
      simp only [List.filter_cons]
      rw [show (y1.date == d) = (y2.date == d) from by rw [hy.2.1]]
      by_cases hd : (y2.date == d) = true
      · rw [if_pos hd, if_pos hd]
        simp only [List.foldl_cons]
        have hstep :
            (match y1.action with
              | TxAction.B => s + y1.quantity
              | TxAction.S => s - y1.quantity) =
            (match y2.action with
              | TxAction.B => s + y2.quantity
              | TxAction.S => s - y2.quantity) := by
          rw [hy.1, hy.2.2]
        rw [hstep]
        exact ih hys d _
      · rw [if_neg hd, if_neg hd]
        exact ih hys d s

theorem specWalk_congr (txs1 txs2 : List Transaction) (fmt : List (String × Rat))
    (happ : ∀ d s, applyDay txs1 d s = applyDay txs2 d s) :
    ∀ (days : List String) (s : Int), specWalk txs1 fmt s days = specWalk txs2 fmt s days := by
  intro days
  induction days with
  | nil => intro s; rfl
  | cons d ds ih =>
    intro s
    rcases hL : lookupD fmt d with _ | price <;> simp only [specWalk, happ d s, hL]
    · exact ih _
    · simp only [ih]

theorem sortedDatesOf_stripEq (tx1 tx2 : List Transaction) (sp : StockPriceData)
    (h : List.Forall₂ StripEq tx1 tx2) :
    sortedDatesOf tx1 sp = sortedDatesOf tx2 sp := by
  unfold sortedDatesOf allDatesOf sortedTransactionsOf
  rw [forall2_map_date (sortBy_stripEq h)]

/-! ## State-passing rendering of the derivation (claim C5)

The only mutating operation in `calculatePortfolioValue`'s body is the
in-place `.sort`, and its receiver is the fresh spread copy
`[...transactions]`; every other statement reads the inputs or writes
fresh local structures.  `calculatePortfolioValueTrace` therefore
returns, next to the value, the final contents of the caller's
`transactions` array and `stockPrices` mapping. -/

/-- `[...transactions]`: a fresh array with the same contents. -/
def spreadCopy (transactions : List Transaction) : List Transaction := transactions

/-- In-place `.sort` under the transaction comparator: the final
    contents of the array it is invoked on. -/
def sortInPlace (arr : List Transaction) : List Transaction := sortBy txLe arr

/-- The derivation with the final state of its two inputs made explicit. -/
def calculatePortfolioValueTrace (transactions : List Transaction)
    (stockPrices : StockPriceData) :
    List PortfolioValueData × List Transaction × StockPriceData :=
  let copied := spreadCopy transactions       -- [...transactions]
  let sortedTransactions := sortInPlace copied  -- .sort mutates only `copied`
  let fmt := formattedStockPricesOf stockPrices -- built into a fresh object
  let out :=
    ((sortBy dateLeStr (dedupKeepFirst (sortedTransactions.map (fun t => t.date) ++
        fmt.map (fun p => p.1)))).foldl (walkStep sortedTransactions fmt) (0, [])).2
  (out, transactions, stockPrices)

/-! ## The component around the derivation (claim C8) -/

/-- The hardcoded `stockToTransactions['GOOGL']` fixture. -/
def stockToTransactionsGOOGL : List Transaction :=
  [{ action := TxAction.B, date := "2021-01-04", price := 86.31, quantity := 5,
     positionAveragePrice := none },
   { action := TxAction.B, date := "2022-01-04", price := 144.4, quantity := 5,
     positionAveragePrice := none },
   { action := TxAction.S, date := "2023-07-26", price := 129.27, quantity := 5,
     positionAveragePrice := some 115.355 }]

/-- How the fetch of `/data/Graph.json` can resolve: a parsed body, a
    non-OK HTTP status (the code then throws before parsing), or a
    body-parse failure. -/
inductive FetchOutcome where
  | ok (data : StockPriceData)
  | httpError (status : Nat)
  | parseError
deriving DecidableEq

/-- The component state: the `stockPrices` and `portfolioData` `useState`
    cells, plus the `console.error` diagnostic channel. -/
structure ChartState where
  stockPrices : Option StockPriceData
  portfolioData : List PortfolioValueData
  errorLog : List String
deriving DecidableEq

/-- Initial state: `useState(null)` and `useState([])`. -/
def initialChartState : ChartState :=
  { stockPrices := none, portfolioData := [], errorLog := [] }

/-- The fetch effect's `try/catch`: a non-OK response throws, and any
    thrown error (including a body-parse failure) is caught and logged;
    only a successful fetch calls `setStockPrices`. -/
def fetchEffect (r : FetchOutcome) (st : ChartState) : ChartState :=
  match r with
  | FetchOutcome.ok data => { st with stockPrices := some data }
  | FetchOutcome.httpError _ =>
    { st with errorLog := st.errorLog ++ ["Error fetching stock prices"] }
  | FetchOutcome.parseError =>
    { st with errorLog := st.errorLog ++ ["Error fetching stock prices"] }

/-- The second `useEffect`: `if (stockPrices) { setPortfolioData(...) }` —
    the derivation runs only once prices are present. -/
def deriveEffect (st : ChartState) : ChartState :=
  match st.stockPrices with
  | some sp =>
    { st with portfolioData := calculatePortfolioValue stockToTransactionsGOOGL sp }
  | none => st

/-- Component state after the fetch resolves and the dependent effect runs. -/
def chartAfterFetch (r : FetchOutcome) : ChartState :=
  deriveEffect (fetchEffect r initialChartState)

/-! ## Sell-only inputs (claim C10) -/

theorem foldl_tx_sellOnly_le (l : List Transaction) (s : Int)
    (hS : ∀ t ∈ l, t.action = TxAction.S) (hq : ∀ t ∈ l, 0 ≤ t.quantity) :
    l.foldl
      (fun s t =>
        match t.action with
        | TxAction.B => s + t.quantity
        | TxAction.S => s - t.quantity) s ≤ s := by
  induction l generalizing s with
  | nil => simp
  | cons t ts ih =>
    have ht := hS t (by simp)
    have h2 := hq t (by simp)
    rw [List.foldl_cons]
    have e : (match t.action with
        | TxAction.B => s + t.quantity
        | TxAction.S => s - t.quantity) = s - t.quantity := by rw [ht]
    rw [e]
    have h1 := ih (s - t.quantity) (fun u hu => hS u (by simp [hu]))
      (fun u hu => hq u (by simp [hu]))
    omega

theorem applyDay_sellOnly_le (txs : List Transaction) (d : String) (s : Int)
    (hS : ∀ t ∈ txs, t.action = TxAction.S) (hq : ∀ t ∈ txs, 0 ≤ t.quantity) :
    applyDay txs d s ≤ s := by
  unfold applyDay
  exact foldl_tx_sellOnly_le _ s
    (fun t ht => hS t (List.mem_of_mem_filter ht))
    (fun t ht => hq t (List.mem_of_mem_filter ht))

theorem specWalk_sellOnly_nil (txs : List Transaction) (fmt : List (String × Rat))
    (hS : ∀ t ∈ txs, t.action = TxAction.S) (hq : ∀ t ∈ txs, 0 ≤ t.quantity) :
    ∀ (days : List String) (s : Int), s ≤ 0 → specWalk txs fmt s days = [] := by
  intro days
  induction days with
  | nil => intro s _; rfl
  | cons d ds ih =>
    intro s hs
    have hs2 : applyDay txs d s ≤ 0 := le_trans (applyDay_sellOnly_le txs d s hS hq) hs
    rcases hL : lookupD fmt d with _ | price <;> simp only [specWalk, hL]
    · exact ih _ hs2
    · rw [if_neg (by omega)]
      exact ih _ hs2

/- `Rat.mul` is `@[irreducible]`; unseal it locally so that concrete
outputs of the derivation evaluate inside `decide` proofs. -/
attribute [local semireducible] Rat.mul

/-! ## The claims -/

/-- C1: For every transactions list and prices mapping, the derivation
walks the sorted day set once with a running integer `sharesHeld`
starting at 0; on each day it first applies all of that day's
transactions (adding `quantity` for Buy, subtracting for Sell), and then
emits a point `{date: day, value: sharesHeld * price}` if and only if a
price exists for that day and `sharesHeld > 0`; days with no price or
with `sharesHeld ≤ 0` emit nothing but are still visited for share-count
bookkeeping.  (`specWalk` is that walk, written from the claim's words.) -/
theorem portfolio_derivation_is_single_walk :
    ∀ (transactions : List Transaction) (stockPrices : StockPriceData),
      calculatePortfolioValue transactions stockPrices =
        specWalk (sortedTransactionsOf transactions) (formattedStockPricesOf stockPrices) 0
          (sortedDatesOf transactions stockPrices) :=
  calculatePortfolioValue_eq_specWalk

/-- C2 (counterexample): with a transaction whose date string does not
parse (`new Date("garbage")` is `NaN`, so the sort comparator is
inconsistent), the output is not strictly ascending by calendar date:
the two emitted points come out as 2021-01-05 before 2021-01-04. -/
theorem portfolio_sorted_ascending_cex :
    ¬ (((calculatePortfolioValue
        [⟨TxAction.B, "2021-01-05", 1, 1, none⟩, ⟨TxAction.B, "garbage", 1, 1, none⟩]
        [⟨100, 1609718400⟩, ⟨110, 1609804800⟩]).map (fun pt => pt.date)).Pairwise
      (fun a b => dateLtB a b = true)) := by
  intro h
  have hmap : ((calculatePortfolioValue
      [⟨TxAction.B, "2021-01-05", 1, 1, none⟩, ⟨TxAction.B, "garbage", 1, 1, none⟩]
      [⟨100, 1609718400⟩, ⟨110, 1609804800⟩]).map (fun pt => pt.date)) =
      ["2021-01-05", "2021-01-04"] := by
    set_option maxRecDepth 100000 in decide
  rw [hmap] at h
  have h1 := (List.pairwise_cons.mp h).1 "2021-01-04" (by simp)
  have h2 : dateLtB "2021-01-05" "2021-01-04" = false := by
    set_option maxRecDepth 100000 in decide
  rw [h2] at h1
  cases h1

/-- C2 (amended): for inputs whose transaction date strings all parse
and whose price timestamps are within the JS `Date` range (beyond it,
`toISOString` throws instead of producing a key), the output is sorted
strictly ascending by calendar date, has at most one point per calendar
day, and every emitted date is a key of the day-keyed price map. -/
theorem portfolio_sorted_ascending (transactions : List Transaction)
    (stockPrices : StockPriceData)
    (hdates : ∀ t ∈ transactions, (parseDateMs t.date).isSome = true)
    (hts : ∀ e ∈ stockPrices, -8640000000000000 ≤ e.timestamp * 1000 ∧
      e.timestamp * 1000 ≤ 8640000000000000) :
    (((calculatePortfolioValue transactions stockPrices).map (fun pt => pt.date)).Pairwise
      (fun a b => dateLtB a b = true)) ∧
    ((calculatePortfolioValue transactions stockPrices).map (fun pt => pt.date)).Nodup ∧
    (∀ pt ∈ calculatePortfolioValue transactions stockPrices,
      lookupD (formattedStockPricesOf stockPrices) pt.date ≠ none) := by
  have hall := allDates_parse transactions stockPrices hdates hts
  have hsorted : (sortedDatesOf transactions stockPrices).Pairwise
      (fun a b => dateLeStr a b = true) := by
    unfold sortedDatesOf
    exact sortBy_pairwise dateLeStr (fun x => (parseDateMs x).isSome = true)
      dateLeStr_total dateLeStr_trans _ hall
  have hnd : (sortedDatesOf transactions stockPrices).Nodup := by
    unfold sortedDatesOf
    exact ((sortBy_perm dateLeStr _).nodup_iff).mpr (dedupKeepFirst_nodup _)
  have hsub : ((calculatePortfolioValue transactions stockPrices).map
      (fun pt => pt.date)).Sublist (sortedDatesOf transactions stockPrices) := by
    rw [calculatePortfolioValue_eq_specWalk]
    exact specWalk_dates_sublist _ _ _ _
  have hpw_le := List.Pairwise.sublist hsub hsorted
  have hpw_ne : ((calculatePortfolioValue transactions stockPrices).map
      (fun pt => pt.date)).Nodup := List.Nodup.sublist hsub hnd
  have helem : ∀ x ∈ (calculatePortfolioValue transactions stockPrices).map
      (fun pt => pt.date),
      ∃ day : Int, -100000001 ≤ day ∧ day ≤ 100000001 ∧ x = stringOfDay day := by
    intro x hx
    obtain ⟨pt, hpt, rfl⟩ := List.mem_map.mp hx
    rw [calculatePortfolioValue_eq_specWalk] at hpt
    obtain ⟨_, pr, hlk⟩ := specWalk_mem_date _ _ _ _ _ hpt
    obtain ⟨e, he, heq⟩ := lookupD_formatted_some _ _ _ hlk
    obtain ⟨hb1, hb2⟩ := hts e he
    exact ⟨(e.timestamp * 1000) / 86400000, by omega, by omega, heq⟩
  refine ⟨?_, hpw_ne, ?_⟩
  · have hcomb := List.pairwise_and_iff.mpr ⟨hpw_le, hpw_ne⟩
    refine List.Pairwise.imp_of_mem ?_ hcomb
    intro a b ha hb hab
    obtain ⟨da, hda1, hda2, rfl⟩ := helem a ha
    obtain ⟨db, hdb1, hdb2, rfl⟩ := helem b hb
    obtain ⟨hle, hne⟩ := hab
    have hpa := parseDateMs_stringOfDay da hda1 hda2
    have hpb := parseDateMs_stringOfDay db hdb1 hdb2
    unfold dateLeStr at hle
    rw [hpa, hpb] at hle
    simp at hle
    have hdane : da ≠ db := fun hcontra => hne (by rw [hcontra])
    unfold dateLtB
    rw [hpa, hpb]
    simp
    omega
  · intro pt hpt
    rw [calculatePortfolioValue_eq_specWalk] at hpt
    obtain ⟨_, pr, hlk⟩ := specWalk_mem_date _ _ _ _ _ hpt
    simp [hlk]

/-- C2 (witness): a concrete well-formed input satisfying the hypotheses. -/
theorem portfolio_sorted_ascending_witness :
    (((calculatePortfolioValue [⟨TxAction.B, "2021-01-04", 86, 5, none⟩]
        [⟨100, 1609718400⟩, ⟨110, 1609804800⟩]).map (fun pt => pt.date)).Pairwise
      (fun a b => dateLtB a b = true)) :=
  (portfolio_sorted_ascending _ _
    (by set_option maxRecDepth 100000 in decide) (by decide)).1

/-- C3 (counterexample): a price entry may close at 0 (or below): the
derivation then emits a point of value 0 on a day whose running share
count is 1 > 0, so "no output point has value ≤ 0 when sharesHeld was
positive" fails for unrestricted inputs. -/
theorem portfolio_value_positive_cex :
    (⟨"2021-01-04", 0⟩ : PortfolioValueData) ∈
      calculatePortfolioValue [⟨TxAction.B, "2021-01-04", 1, 1, none⟩]
        [⟨0, 1609718400⟩] ∧
    runShares (sortedTransactionsOf [⟨TxAction.B, "2021-01-04", 1, 1, none⟩]) 0
      (sortedDatesOf [⟨TxAction.B, "2021-01-04", 1, 1, none⟩] [⟨0, 1609718400⟩]) = 1 ∧
    ¬ (0 < (⟨"2021-01-04", 0⟩ : PortfolioValueData).value) := by
  refine ⟨?_, ?_, by decide⟩
  · set_option maxRecDepth 100000 in decide
  · set_option maxRecDepth 100000 in decide

/-- C3 (amended): when every close in the price table is positive, every
output point's value is positive; and — unconditionally — no point is
emitted for a day at which the running share count (after that day's
transactions) is ≤ 0. -/
theorem portfolio_value_positive (transactions : List Transaction)
    (stockPrices : StockPriceData) :
    ((∀ e ∈ stockPrices, 0 < e.close) →
      ∀ pt ∈ calculatePortfolioValue transactions stockPrices, 0 < pt.value) ∧
    (∀ (pre : List String) (d : String) (suf : List String),
      sortedDatesOf transactions stockPrices = pre ++ d :: suf →
      runShares (sortedTransactionsOf transactions) 0 (pre ++ [d]) ≤ 0 →
      ∀ pt ∈ calculatePortfolioValue transactions stockPrices, pt.date ≠ d) := by
  constructor
  · intro hclose pt hpt
    rw [calculatePortfolioValue_eq_specWalk] at hpt
    obtain ⟨pre, suf, pr, hdays, hlk, hpos, hval⟩ := specWalk_mem_decomp _ _ _ _ _ hpt
    obtain ⟨e, he, hecl⟩ := lookupD_formatted_close _ _ _ hlk
    have hpr : 0 < pr := hecl ▸ hclose e he
    rw [hval]
    have hplus : (0 : Rat) <
        ((runShares (sortedTransactionsOf transactions) 0 (pre ++ [pt.date]) : Int) : Rat) := by
      exact_mod_cast hpos
    exact mul_pos hplus hpr
  · intro pre d suf hdays hle pt hpt heq
    have hnd : (sortedDatesOf transactions stockPrices).Nodup := by
      unfold sortedDatesOf
      exact ((sortBy_perm dateLeStr _).nodup_iff).mpr (dedupKeepFirst_nodup _)
    rw [calculatePortfolioValue_eq_specWalk, hdays] at hpt
    rw [hdays] at hnd
    exact specWalk_guard _ _ pre d suf 0 hnd hle pt hpt heq

/-- C3 (witness): both parts at a concrete buy-then-sell history. -/
theorem portfolio_value_positive_witness :
    0 < (⟨"2021-01-04", (500 : Rat)⟩ : PortfolioValueData).value ∧
    (⟨"2021-01-04", (500 : Rat)⟩ : PortfolioValueData).date ≠ "2021-01-05" := by
  constructor
  · exact (portfolio_value_positive
      [⟨TxAction.B, "2021-01-04", 86, 5, none⟩,
       ⟨TxAction.S, "2021-01-05", 90, 5, none⟩]
      [⟨100, 1609718400⟩, ⟨110, 1609804800⟩]).1
      (by decide) ⟨"2021-01-04", 500⟩
      (by set_option maxRecDepth 100000 in decide)
  · exact (portfolio_value_positive
      [⟨TxAction.B, "2021-01-04", 86, 5, none⟩,
       ⟨TxAction.S, "2021-01-05", 90, 5, none⟩]
      [⟨100, 1609718400⟩, ⟨110, 1609804800⟩]).2
      ["2021-01-04"] "2021-01-05" []
      (by set_option maxRecDepth 100000 in decide)
      (by set_option maxRecDepth 100000 in decide)
      ⟨"2021-01-04", 500⟩
      (by set_option maxRecDepth 100000 in decide)

/-- C4: price observations are day-keyed by `formatDate`, i.e. by taking
`timestamp * 1000` as milliseconds since the epoch and truncating to the
UTC ISO calendar date; when several entries share a day, the
later-iterated entry overwrites the earlier one, so the day's price is
the close of the last-iterated entry for that day (e.g. closes 100 then
105 on the same day yield 105). -/
theorem price_day_key_last_write_wins :
    (∀ ts : Int, formatDate ts = stringOfDay ((ts * 1000) / 86400000)) ∧
    (∀ (stockPrices : StockPriceData) (d : String),
      lookupD (formattedStockPricesOf stockPrices) d =
        (stockPrices.reverse.find? (fun e => formatDate e.timestamp == d)).map
          (fun e => e.close)) ∧
    formatDate 1609750000 = "2021-01-04" ∧
    lookupD (formattedStockPricesOf [⟨100, 1609718400⟩, ⟨105, 1609750000⟩]) "2021-01-04"
      = some 105 := by
  refine ⟨fun ts => rfl, lookupD_formatted_lastWrite, ?_, ?_⟩
  · set_option maxRecDepth 100000 in decide
  · set_option maxRecDepth 100000 in decide

/-- C5: `calculatePortfolioValue` is pure: in the state-passing
rendering (the in-place sort acts on the spread copy, everything else
only reads), the caller's transactions array and prices mapping are
returned unchanged, and the value component is the pure function. -/
theorem derivation_pure_frame :
    ∀ (transactions : List Transaction) (stockPrices : StockPriceData),
      (calculatePortfolioValueTrace transactions stockPrices).2.1 = transactions ∧
      (calculatePortfolioValueTrace transactions stockPrices).2.2 = stockPrices ∧
      (calculatePortfolioValueTrace transactions stockPrices).1 =
        calculatePortfolioValue transactions stockPrices := by
  intro transactions stockPrices
  exact ⟨rfl, rfl, rfl⟩

/-- C6: the derivation is deterministic — two calls on equal transaction
lists and equal price tables (same entries in the same iteration order)
return equal outputs. -/
theorem derivation_deterministic :
    ∀ (tx1 tx2 : List Transaction) (sp1 sp2 : StockPriceData),
      tx1 = tx2 → sp1 = sp2 →
      calculatePortfolioValue tx1 sp1 = calculatePortfolioValue tx2 sp2 := by
  intro tx1 tx2 sp1 sp2 h1 h2
  rw [h1, h2]

/-- C6 (witness): the two hypotheses discharged at the GOOGL fixture. -/
theorem derivation_deterministic_witness :
    calculatePortfolioValue stockToTransactionsGOOGL [⟨100, 1609718400⟩] =
      calculatePortfolioValue stockToTransactionsGOOGL [⟨100, 1609718400⟩] :=
  derivation_deterministic _ _ _ _ rfl rfl

/-- C7: the `price` field of a Transaction is not used in valuation —
for any two transaction lists that agree pointwise on `action`, `date`
and `quantity` (i.e. may differ only in `price` and
`positionAveragePrice`), the derivation returns identical outputs on
every price table. -/
theorem trade_price_not_used (tx1 tx2 : List Transaction) (stockPrices : StockPriceData)
    (h : List.Forall₂ StripEq tx1 tx2) :
    calculatePortfolioValue tx1 stockPrices = calculatePortfolioValue tx2 stockPrices := by
  rw [calculatePortfolioValue_eq_specWalk, calculatePortfolioValue_eq_specWalk,
    sortedDatesOf_stripEq tx1 tx2 stockPrices h]
  exact specWalk_congr _ _ _ (fun d s => applyDay_stripEq (sortBy_stripEq h) d s) _ 0

/-- C7 (witness): changing only `price` and `positionAveragePrice`. -/
theorem trade_price_not_used_witness :
    calculatePortfolioValue [⟨TxAction.B, "2021-01-04", 86, 5, none⟩]
        [⟨100, 1609718400⟩] =
      calculatePortfolioValue [⟨TxAction.B, "2021-01-04", 999, 5, some 3⟩]
        [⟨100, 1609718400⟩] :=
  trade_price_not_used _ _ _ (List.Forall₂.cons ⟨rfl, rfl, rfl⟩ List.Forall₂.nil)

/-- C8: the only failure path is the price-history fetch — a non-OK
HTTP response or a body-parse error is caught and logged, the price
state stays unset, the derived series stays empty, and the derivation
is not invoked (it runs only under `if (stockPrices)`). -/
theorem fetch_failure_keeps_chart_empty (r : FetchOutcome)
    (h : ∀ data : StockPriceData, r ≠ FetchOutcome.ok data) :
    (chartAfterFetch r).stockPrices = none ∧
    (chartAfterFetch r).portfolioData = [] ∧
    (chartAfterFetch r).errorLog ≠ [] := by
  cases r with
  | ok data => exact absurd rfl (h data)
  | httpError status =>
    refine ⟨rfl, rfl, ?_⟩
    intro hc
    simp [chartAfterFetch, fetchEffect, deriveEffect, initialChartState] at hc
  | parseError =>
    refine ⟨rfl, rfl, ?_⟩
    intro hc
    simp [chartAfterFetch, fetchEffect, deriveEffect, initialChartState] at hc

/-- C8 (witness): a concrete non-OK response. -/
theorem fetch_failure_keeps_chart_empty_witness :
    (chartAfterFetch (FetchOutcome.httpError 404)).stockPrices = none ∧
    (chartAfterFetch (FetchOutcome.httpError 404)).portfolioData = [] ∧
    (chartAfterFetch (FetchOutcome.httpError 404)).errorLog ≠ [] :=
  fetch_failure_keeps_chart_empty _ (fun _ hc => FetchOutcome.noConfusion hc)

/-- C9: transactions are matched to days by exact string equality on the
raw `date` field: the walked day set contains every raw transaction date
string; a transaction whose date string is not a key of the day-keyed
price map never yields an output point at that string; and concretely, a
transaction dated `"2021-01-04T00:00:00Z"` (which parses to the same
instant as the price day key `"2021-01-04"`) is applied at its own
string's position — the emitted point sits at the price's own ISO key,
with the share count marked to market. -/
theorem raw_string_day_matching :
    (∀ (transactions : List Transaction) (stockPrices : StockPriceData),
      ∀ t ∈ transactions, t.date ∈ allDatesOf transactions stockPrices) ∧
    (∀ (transactions : List Transaction) (stockPrices : StockPriceData),
      ∀ t ∈ transactions,
        lookupD (formattedStockPricesOf stockPrices) t.date = none →
        ∀ pt ∈ calculatePortfolioValue transactions stockPrices, pt.date ≠ t.date) ∧
    (calculatePortfolioValue [⟨TxAction.B, "2021-01-04T00:00:00Z", 86, 5, none⟩]
        [⟨100, 1609718400⟩]).map (fun pt => pt.date) = ["2021-01-04"] ∧
    calculatePortfolioValue [⟨TxAction.B, "2021-01-04T00:00:00Z", 86, 5, none⟩]
        [⟨100, 1609718400⟩] = [⟨"2021-01-04", ((5 : Int) : Rat) * 100⟩] := by
  refine ⟨?_, ?_, ?_, ?_⟩
  · intro transactions stockPrices t ht
    unfold allDatesOf
    rw [mem_dedupKeepFirst]
    refine List.mem_append.mpr (Or.inl (List.mem_map.mpr ⟨t, ?_, rfl⟩))
    unfold sortedTransactionsOf
    exact (mem_sortBy txLe transactions t).mpr ht
  · intro transactions stockPrices t ht hnone pt hpt heq
    rw [calculatePortfolioValue_eq_specWalk] at hpt
    obtain ⟨_, pr, hlk⟩ := specWalk_mem_date _ _ _ _ _ hpt
    rw [heq, hnone] at hlk
    cases hlk
  · set_option maxRecDepth 100000 in decide
  · set_option maxRecDepth 100000 in decide

/-- C9 (witness): the membership hypotheses discharged concretely. -/
theorem raw_string_day_matching_witness :
    "2021-01-04T00:00:00Z" ∈
      allDatesOf [⟨TxAction.B, "2021-01-04T00:00:00Z", 86, 5, none⟩]
        [⟨100, 1609718400⟩] :=
  raw_string_day_matching.1 _ _ ⟨TxAction.B, "2021-01-04T00:00:00Z", 86, 5, none⟩
    (by decide)

/-- C10 (counterexample): with no Buy transaction but a Sell of negative
quantity (`quantity` is just a JS number; nothing validates its sign),
`sharesHeld` becomes positive and the output is nonempty. -/
theorem no_buy_gives_empty_cex :
    calculatePortfolioValue [⟨TxAction.S, "2021-01-04", 1, -5, none⟩]
        [⟨100, 1609718400⟩] ≠ [] ∧
    (calculatePortfolioValue [⟨TxAction.S, "2021-01-04", 1, -5, none⟩]
      [⟨100, 1609718400⟩]).map (fun pt => pt.date) = ["2021-01-04"] := by
  constructor
  · set_option maxRecDepth 100000 in decide
  · set_option maxRecDepth 100000 in decide

/-- C10 (amended): if the transactions list contains no Buy (every
action is Sell — the type has only the two variants) and quantities are
nonnegative (the data model declares `quantity` an unsigned share
count), the derivation returns the empty sequence for every price
table, because `sharesHeld` never becomes positive. -/
theorem no_buy_gives_empty (transactions : List Transaction) (stockPrices : StockPriceData)
    (hS : ∀ t ∈ transactions, t.action = TxAction.S)
    (hq : ∀ t ∈ transactions, 0 ≤ t.quantity) :
    calculatePortfolioValue transactions stockPrices = [] := by
  rw [calculatePortfolioValue_eq_specWalk]
  refine specWalk_sellOnly_nil _ _ ?_ ?_ _ 0 le_rfl
  · intro t ht
    exact hS t ((mem_sortBy txLe transactions t).mp ht)
  · intro t ht
    exact hq t ((mem_sortBy txLe transactions t).mp ht)

/-- C10 (witness): a sell-only history yields the empty series. -/
theorem no_buy_gives_empty_witness :
    calculatePortfolioValue [⟨TxAction.S, "2021-01-04", 1, 5, none⟩]
      [⟨100, 1609718400⟩] = [] :=
  no_buy_gives_empty _ _ (by decide) (by decide)
